import Mathlib

/-!
Verification development for the subgraph-retrieval toolkit.

Shallow embedding of:
* `preprocess/search_path.py` (`generate_paths` and the sample loop of `main`),
* `scorer/scorer.py` (`Scorer.score` with its `functools.lru_cache` memoization
  and `torch.nn.functional.cosine_similarity`),
* `src/srtk/train.py` (`prepare_dataloaders`).

Python exceptions are modelled with `Except String`; real-valued tensor math is
modelled over `ℝ`.
-/

set_option autoImplicit false

namespace Srtk

/-- A knowledge-graph triplet `(subject, relation, object)`; in the output JSONL
each path element is the 3-element array `[subject_id, relation_id, object_id]`. -/
structure Triplet where
  subject : String
  relation : String
  object : String
deriving DecidableEq

/-- A path is a sequence of triplets. -/
abbrev Path := List Triplet

/-- The knowledge-graph backend as used by `generate_paths`
(`kg.search_one_hop_relation`, `kg.search_two_hop_relation`).  Each query either
returns a list of paths or raises (modelled with `Except.error`). -/
structure KG where
  search_one_hop_relation : String → String → Except String (List Path)
  search_two_hop_relation : String → String → Except String (List Path)

/-- The inner `for dst in dst_entities` loop of `generate_paths`:
checks `len(paths) >= max_path` (breaking out of the inner loop), otherwise
extends `paths` with the one-hop then the two-hop results for `(src, dst)`.
An exception from either query propagates out. -/
def innerLoop (kg : KG) (src : String) (dsts : List String) (max_path : Nat)
    (paths : List Path) : Except String (List Path) :=
  match dsts with
  | [] => Except.ok paths
  | dst :: rest =>
    if max_path ≤ paths.length then Except.ok paths
    else
      match kg.search_one_hop_relation src dst with
      | Except.error e => Except.error e
      | Except.ok one =>
        match kg.search_two_hop_relation src dst with
        | Except.error e => Except.error e
        | Except.ok two => innerLoop kg src rest max_path ((paths ++ one) ++ two)

/-- The outer `for src in src_entities` loop of `generate_paths`. -/
def outerLoop (kg : KG) (srcs dsts : List String) (max_path : Nat)
    (paths : List Path) : Except String (List Path) :=
  match srcs with
  | [] => Except.ok paths
  | src :: rest =>
    match innerLoop kg src dsts max_path paths with
    | Except.error e => Except.error e
    | Except.ok paths2 => outerLoop kg rest dsts max_path paths2

/-- Function `generate_paths(src_entities, dst_entities, kg, max_path)` from
`preprocess/search_path.py`: runs the nested loops starting from the empty
accumulator and returns `paths[:max_path]`. -/
def generate_paths (src_entities dst_entities : List String) (kg : KG)
    (max_path : Nat) : Except String (List Path) :=
  match outerLoop kg src_entities dst_entities max_path [] with
  | Except.error e => Except.error e
  | Except.ok paths => Except.ok (paths.take max_path)

/-- The default value of the `max_path` parameter (`max_path=100`), which is
what `main` uses since it calls `generate_paths` without that argument. -/
def default_max_path : Nat := 100

/-- A ground sample, as read from the grounded JSONL file. -/
structure Sample where
  id : String
  question : String
  question_entities : List String
  answer_entities : List String
deriving DecidableEq

/-- A processed sample: the input sample enriched with its `paths` field. -/
structure OutSample where
  sample : Sample
  paths : List Path
deriving DecidableEq

/-- The per-sample loop of `main` in `preprocess/search_path.py`.
For each sample it tries `generate_paths(question_entities, answer_entities, kg)`;
on an exception the sample is dropped, the skip counter is incremented and the
exception is printed (collected here as a log list); otherwise the enriched
sample is appended to the processed list.  Returns
`(processed_samples, skipped, log)`. -/
def processSamples (kg : KG) (samples : List Sample) :
    List OutSample × Nat × List String :=
  match samples with
  | [] => ([], 0, [])
  | s :: rest =>
    match generate_paths s.question_entities s.answer_entities kg default_max_path with
    | Except.error e =>
      let r := processSamples kg rest
      (r.1, r.2.1 + 1, e :: r.2.2)
    | Except.ok paths =>
      let r := processSamples kg rest
      (⟨s, paths⟩ :: r.1, r.2.1, r.2.2)

/-- The end-of-run summary line of `main`:
`Processed {len(processed_samples)} samples, skipped {skipped} samples, total {total_samples} samples`,
as the triple (processed, skipped, total). -/
def mainSummary (kg : KG) (samples : List Sample) : Nat × Nat × Nat :=
  ((processSamples kg samples).1.length, (processSamples kg samples).2.1, samples.length)

/-- A backend that never raises, built from two pure query functions. -/
def pureKG (f g : String → String → List Path) : KG :=
  ⟨fun s d => Except.ok (f s d), fun s d => Except.ok (g s d)⟩

/-- A backend that raises error `e` on the one-hop query for the single pair
`(bs, bd)` and otherwise answers from the pure functions `f` and `g`. -/
def failKG (f g : String → String → List Path) (bs bd : String) (e : String) : KG :=
  ⟨fun s d => if s = bs ∧ d = bd then Except.error e else Except.ok (f s d),
   fun s d => Except.ok (g s d)⟩

/-- Exception-free mirror of `innerLoop` for a backend `pureKG f g`. -/
def innerLoopPure (f g : String → String → List Path) (src : String)
    (dsts : List String) (max_path : Nat) (paths : List Path) : List Path :=
  match dsts with
  | [] => paths
  | dst :: rest =>
    if max_path ≤ paths.length then paths
    else innerLoopPure f g src rest max_path ((paths ++ f src dst) ++ g src dst)

/-- Exception-free mirror of `outerLoop` for a backend `pureKG f g`. -/
def outerLoopPure (f g : String → String → List Path) (srcs dsts : List String)
    (max_path : Nat) (paths : List Path) : List Path :=
  match srcs with
  | [] => paths
  | src :: rest =>
    outerLoopPure f g rest dsts max_path (innerLoopPure f g src dsts max_path paths)

/-- The full, un-truncated concatenation of backend answers in the deterministic
iteration order of `generate_paths`: source-major, destination-minor, one-hop
results before two-hop results for each pair. -/
def allPairPaths (f g : String → String → List Path) (srcs dsts : List String) :
    List Path :=
  srcs.flatMap (fun s => dsts.flatMap (fun d => f s d ++ g s d))

/-- Call `generate_paths(question_entities, answer_entities, kg)` as `main` makes it
(with the default `max_path`). -/
def samplePaths (kg : KG) (s : Sample) : Except String (List Path) :=
  generate_paths s.question_entities s.answer_entities kg default_max_path

/-- Whether path enumeration for a sample raises. -/
def sampleFails (kg : KG) (s : Sample) : Bool :=
  match samplePaths kg s with
  | Except.error _ => true
  | Except.ok _ => false

/-- The exception message raised for a sample, when there is one. -/
def sampleError? (kg : KG) (s : Sample) : Option String :=
  match samplePaths kg s with
  | Except.error e => some e
  | Except.ok _ => none

/-- A path starts at one of the sample's question entities and ends at one of
its answer entities. -/
def PathOK (srcs dsts : List String) (p : Path) : Prop :=
  ∃ h : p ≠ [], (p.head h).subject ∈ srcs ∧ (p.getLast h).object ∈ dsts

/-- torch's default `eps` of `torch.nn.functional.cosine_similarity` (`1e-8`);
`Scorer.score` calls it without overriding the default. -/
noncomputable def cosineEps : ℝ := 1 / 10 ^ 8

/-- Dot product of two embedding vectors. -/
noncomputable def dotp (n : Nat) (x y : Fin n → ℝ) : ℝ := ∑ i, x i * y i

/-- Function `torch.nn.functional.cosine_similarity`:
`x1 · x2 / max(‖x1‖ * ‖x2‖, eps)`. -/
noncomputable def cosineSim (n : Nat) (x y : Fin n → ℝ) : ℝ :=
  dotp n x y / max (Real.sqrt (dotp n x x) * Real.sqrt (dotp n y y)) cosineEps

/-- Modelled from the spec: `LitSentenceEncoder` together with the tokenizer
and `average_pool` (the file `scorer/encoder.py` is not among the sources).
Per spec §4.2, scoring-time behavior is deterministic for a fixed model state
("no randomness, no dropout-active behavior"), so the tokenize-encode-pool
pipeline is modelled as a fixed function from the two input texts to a pair of
pooled embedding vectors. -/
structure ScorerModel (n : Nat) where
  encode : String → String → (Fin n → ℝ) × (Fin n → ℝ)

/-- The body of `Scorer.score`: builds
`query = f"query: {question} [SEP] {' # '.join(prev_relations)}"` and
`"relation: " + next_relation`, tokenizes, encodes and average-pools both under
`torch.no_grad()`, then returns the cosine similarity of the two pooled
embeddings. -/
noncomputable def computeScore {n : Nat} (M : ScorerModel n) (question : String)
    (prev_relations : List String) (next_relation : String) : ℝ :=
  let query := "query: " ++ question ++ " [SEP] " ++
    String.intercalate " # " prev_relations
  let cand := "relation: " ++ next_relation
  cosineSim n (M.encode query cand).1 (M.encode query cand).2

/-- The memoization key of `Scorer.score`:
`(question, prev_relations, next_relation)` (for one fixed `self`). -/
abbrev ScoreKey := String × List String × String

/-- The default `maxsize` of `functools.lru_cache`: `Scorer.score` is decorated
with bare `@lru_cache`, so the default bound of 128 entries applies. -/
def lruMaxsize : Nat := 128

/-- The memoization table of one `Scorer` instance, most recently used first. -/
structure ScoreCache where
  entries : List (ScoreKey × ℝ)

/-- Method `Scorer.score` as decorated with `@lru_cache`: look the key up in the
table; on a hit return the stored value and move the entry to the
most-recently-used position without running the encoder; on a miss run the
underlying computation, insert the result at the front, and drop the
least-recently-used entry when the table would exceed `lruMaxsize`.  The
returned boolean records whether the underlying encoder computation ran. -/
noncomputable def scoreCached {n : Nat} (M : ScorerModel n) (s : ScoreCache)
    (question : String) (prev_relations : List String) (next_relation : String) :
    ℝ × ScoreCache × Bool :=
  let k : ScoreKey := (question, prev_relations, next_relation)
  match s.entries.find? (fun e => e.1 == k) with
  | some e => (e.2, ⟨(k, e.2) :: s.entries.eraseP (fun e2 => e2.1 == k)⟩, false)
  | none =>
    let v := computeScore M question prev_relations next_relation
    (v, ⟨((k, v) :: s.entries).take lruMaxsize⟩, true)

/-- Run a sequence of `score` calls against one `Scorer` instance, threading
the memoization table. -/
noncomputable def runCache {n : Nat} (M : ScorerModel n) :
    ScoreCache → List ScoreKey → ScoreCache
  | s, [] => s
  | s, k :: ks => runCache M (scoreCached M s k.1 k.2.1 k.2.2).2.1 ks

/-- Key-level simulation of one `lru_cache` step (values erased). -/
def lruKeysStep (ks : List ScoreKey) (k : ScoreKey) : List ScoreKey × Bool :=
  match ks.find? (fun k2 => k2 == k) with
  | some _ => (k :: ks.eraseP (fun k2 => k2 == k), false)
  | none => ((k :: ks).take lruMaxsize, true)

/-- Key-level simulation of a sequence of `lru_cache` steps. -/
def lruRunKeys : List ScoreKey → List ScoreKey → List ScoreKey
  | ks, [] => ks
  | ks, k :: rest => lruRunKeys (lruKeysStep ks k).1 rest

/-- The keys currently memoized, most recently used first. -/
def cacheKeys (s : ScoreCache) : List ScoreKey := s.entries.map Prod.fst

/-- Every value stored in the table is the one the encoder computes for its
key. -/
def Consistent {n : Nat} (M : ScorerModel n) (s : ScoreCache) : Prop :=
  ∀ e ∈ s.entries, e.2 = computeScore M e.1.1 e.1.2.1 e.1.2.2

/-- A concrete scorer model whose encoder maps every text pair to zero
vectors; used to instantiate cache-behavior statements. -/
noncomputable def constModel : ScorerModel 1 :=
  ⟨fun _ _ => (fun _ => 0, fun _ => 0)⟩

/-- A list of `lruMaxsize + 1` pairwise distinct score keys: question `""`, empty
relation history, and a distinct single-character `next_relation`. -/
def testKeys : List ScoreKey :=
  (List.range (lruMaxsize + 1)).map
    (fun i => ("", [], String.mk [Char.ofNat (97 + i)]))

/-- Number of records in the `train[:95%]` slice of a file of `n` records, per
the `datasets` library's percent slicing: the boundary index is the nearest
integer to `0.95 * n` (Python `round`, ties to even). -/
def hfSplitBoundary (n : Nat) : Nat :=
  if 19 * n % 20 < 10 then 19 * n / 20
  else if 10 < 19 * n % 20 then 19 * n / 20 + 1
  else if 19 * n / 20 % 2 = 0 then 19 * n / 20 else 19 * n / 20 + 1

/-- A `torch.utils.data.DataLoader` as configured by `prepare_dataloaders`:
the dataset it iterates, its batch size, and its shuffle flag. -/
structure DataLoaderCfg (β : Type) where
  dataset : List β
  batch_size : Nat
  shuffle : Bool
deriving DecidableEq

/-- Function `prepare_dataloaders` from `src/srtk/train.py`: loads the `train[:95%]`
slice of the data file as the training split and the `train[95%:]` slice as
the validation split, maps `concate_all` followed by tokenization over each
record (abstracted as `f`, applied record-wise in order), and builds a
shuffling loader for training and a non-shuffling loader for validation. -/
def prepare_dataloaders {α β : Type} (records : List α) (f : α → β)
    (batch_size : Nat) : DataLoaderCfg β × DataLoaderCfg β :=
  (⟨(records.take (hfSplitBoundary records.length)).map f, batch_size, true⟩,
   ⟨(records.drop (hfSplitBoundary records.length)).map f, batch_size, false⟩)

/-- A pure backend returning five copies of a one-hop path for every pair. -/
def kgFive : KG :=
  pureKG (fun s d => List.replicate 5 [Triplet.mk s "r" d]) (fun _ _ => [])

/-- A pure backend returning one one-hop path for every pair. -/
def dupKG : KG := pureKG (fun s d => [[Triplet.mk s "R" d]]) (fun _ _ => [])

/-- A backend that raises `"timeout"` on the one-hop query for the pair
`("E1", "E3")` and has a one-hop path for every other pair. -/
def timeoutKG : KG :=
  failKG (fun s d => [[Triplet.mk s "R" d]]) (fun _ _ => []) "E1" "E3" "timeout"

/-- A backend whose one-hop query always finds the single relation `P31` and
whose two-hop query finds nothing. -/
def oneHopKG : KG :=
  ⟨fun s d => Except.ok [[Triplet.mk s "P31" d]], fun _ _ => Except.ok []⟩

/-- The unit vector `(1, 0)` in the plane. -/
noncomputable def unitVec : Fin 2 → ℝ := fun i => if i = 0 then 1 else 0

theorem innerLoop_pureKG (f g : String → String → List Path) (src : String)
    (dsts : List String) (mp : Nat) (acc : List Path) :
    innerLoop (pureKG f g) src dsts mp acc =
      Except.ok (innerLoopPure f g src dsts mp acc) := by
  induction dsts generalizing acc with
  | nil => rfl
  | cons d rest ih =>
    by_cases h : mp ≤ acc.length
    · simp [innerLoop, innerLoopPure, h]
    · have e1 : innerLoop (pureKG f g) src (d :: rest) mp acc
          = innerLoop (pureKG f g) src rest mp ((acc ++ f src d) ++ g src d) := by
        simp [innerLoop, h, pureKG]
      have e2 : innerLoopPure f g src (d :: rest) mp acc
          = innerLoopPure f g src rest mp ((acc ++ f src d) ++ g src d) := by
        simp [innerLoopPure, h]
      rw [e1, e2, ih]

theorem outerLoop_pureKG (f g : String → String → List Path)
    (srcs dsts : List String) (mp : Nat) (acc : List Path) :
    outerLoop (pureKG f g) srcs dsts mp acc =
      Except.ok (outerLoopPure f g srcs dsts mp acc) := by
  induction srcs generalizing acc with
  | nil => rfl
  | cons s rest ih =>
    simp [outerLoop, outerLoopPure, innerLoop_pureKG, ih]

theorem innerLoopPure_of_le (f g : String → String → List Path) (src : String)
    (dsts : List String) (mp : Nat) (acc : List Path) (h : mp ≤ acc.length) :
    innerLoopPure f g src dsts mp acc = acc := by
  cases dsts with
  | nil => rfl
  | cons d rest => simp [innerLoopPure, h]

theorem outerLoopPure_of_le (f g : String → String → List Path)
    (srcs dsts : List String) (mp : Nat) (acc : List Path) (h : mp ≤ acc.length) :
    outerLoopPure f g srcs dsts mp acc = acc := by
  induction srcs with
  | nil => rfl
  | cons s rest ih =>
    simp [outerLoopPure, innerLoopPure_of_le f g s dsts mp acc h, ih]

theorem innerLoopPure_spec (f g : String → String → List Path) (src : String)
    (dsts : List String) (mp : Nat) (acc : List Path) :
    innerLoopPure f g src dsts mp acc
        = acc ++ dsts.flatMap (fun d => f src d ++ g src d) ∨
      (mp ≤ (innerLoopPure f g src dsts mp acc).length ∧
        (innerLoopPure f g src dsts mp acc).take mp
          = (acc ++ dsts.flatMap (fun d => f src d ++ g src d)).take mp) := by
  induction dsts generalizing acc with
  | nil => left; simp [innerLoopPure]
  | cons d rest ih =>
    by_cases h : mp ≤ acc.length
    · right
      rw [innerLoopPure_of_le f g src _ mp acc h]
      exact ⟨h, (List.take_append_of_le_length h).symm⟩
    · have hstep : innerLoopPure f g src (d :: rest) mp acc
          = innerLoopPure f g src rest mp ((acc ++ f src d) ++ g src d) := by
        simp [innerLoopPure, h]
      have happ : ((acc ++ f src d) ++ g src d)
            ++ rest.flatMap (fun d2 => f src d2 ++ g src d2)
          = acc ++ (d :: rest).flatMap (fun d2 => f src d2 ++ g src d2) := by
        simp [List.flatMap_cons, List.append_assoc]
      rcases ih ((acc ++ f src d) ++ g src d) with h1 | ⟨h2, h3⟩
      · left; rw [hstep, h1, happ]
      · right; rw [hstep]
        exact ⟨h2, by rw [h3, happ]⟩

theorem outerLoopPure_spec (f g : String → String → List Path)
    (srcs dsts : List String) (mp : Nat) (acc : List Path) :
    outerLoopPure f g srcs dsts mp acc = acc ++ allPairPaths f g srcs dsts ∨
      (mp ≤ (outerLoopPure f g srcs dsts mp acc).length ∧
        (outerLoopPure f g srcs dsts mp acc).take mp
          = (acc ++ allPairPaths f g srcs dsts).take mp) := by
  induction srcs generalizing acc with
  | nil => left; simp [outerLoopPure, allPairPaths]
  | cons s rest ih =>
    have hstep : outerLoopPure f g (s :: rest) dsts mp acc
        = outerLoopPure f g rest dsts mp (innerLoopPure f g s dsts mp acc) := rfl
    have hflat : acc ++ allPairPaths f g (s :: rest) dsts
        = (acc ++ dsts.flatMap (fun d => f s d ++ g s d)) ++ allPairPaths f g rest dsts := by
      simp [allPairPaths, List.flatMap_cons, List.append_assoc]
    rcases innerLoopPure_spec f g s dsts mp acc with h1 | ⟨h2, h3⟩
    · rcases ih (innerLoopPure f g s dsts mp acc) with h4 | ⟨h5, h6⟩
      · left; rw [hstep, h4, h1, hflat]
      · right
        refine ⟨by rw [hstep]; exact h5, ?_⟩
        rw [hstep, h6, h1, hflat]
    · -- the inner loop already reached `mp` paths: every later loop breaks at once
      have hout : outerLoopPure f g (s :: rest) dsts mp acc
          = innerLoopPure f g s dsts mp acc := by
        rw [hstep, outerLoopPure_of_le f g rest dsts mp _ h2]
      right
      refine ⟨by rw [hout]; exact h2, ?_⟩
      -- the first `mp` accumulated paths are unaffected by anything appended later
      have hlen : mp ≤ (acc ++ dsts.flatMap (fun d => f s d ++ g s d)).length := by
        have := congrArg List.length h3
        simp only [List.length_take] at this
        omega
      rw [hout, h3, hflat, List.take_append_of_le_length hlen]

/-- With a pure backend, `generate_paths` returns exactly the first `max_path`
paths of the full source-major / destination-minor / one-hop-before-two-hop
concatenation of backend answers. -/
theorem generate_paths_pure (f g : String → String → List Path)
    (srcs dsts : List String) (mp : Nat) :
    generate_paths srcs dsts (pureKG f g) mp =
      Except.ok ((allPairPaths f g srcs dsts).take mp) := by
  have h := outerLoop_pureKG f g srcs dsts mp []
  rcases outerLoopPure_spec f g srcs dsts mp [] with h1 | ⟨_, h3⟩
  · simp [generate_paths, h, h1]
  · simp only [List.nil_append] at h3
    simp [generate_paths, h, h3]

theorem generate_paths_length_le (srcs dsts : List String) (kg : KG) (mp : Nat)
    (ps : List Path) (h : generate_paths srcs dsts kg mp = Except.ok ps) :
    ps.length ≤ mp := by
  unfold generate_paths at h
  cases hout : outerLoop kg srcs dsts mp [] with
  | error e => rw [hout] at h; exact absurd h (by simp)
  | ok l =>
    rw [hout] at h
    have : ps = l.take mp := by injection h with h2; exact h2.symm
    rw [this, List.length_take]
    exact min_le_left mp l.length

theorem innerLoop_mem (kg : KG) (src : String) (dsts : List String) (mp : Nat)
    (acc l : List Path) (p : Path) :
    innerLoop kg src dsts mp acc = Except.ok l → p ∈ l →
      p ∈ acc ∨ ∃ d ∈ dsts,
        (∃ l1, kg.search_one_hop_relation src d = Except.ok l1 ∧ p ∈ l1) ∨
        (∃ l2, kg.search_two_hop_relation src d = Except.ok l2 ∧ p ∈ l2) := by
  induction dsts generalizing acc with
  | nil =>
    intro h hp
    left
    simp only [innerLoop, Except.ok.injEq] at h
    rwa [h]
  | cons d rest ih =>
    intro h hp
    by_cases hb : mp ≤ acc.length
    · left
      simp only [innerLoop, if_pos hb, Except.ok.injEq] at h
      rwa [h]
    · cases h1 : kg.search_one_hop_relation src d with
      | error e => simp [innerLoop, hb, h1] at h
      | ok l1 =>
        cases h2 : kg.search_two_hop_relation src d with
        | error e => simp [innerLoop, hb, h1, h2] at h
        | ok l2 =>
          rw [show innerLoop kg src (d :: rest) mp acc
              = innerLoop kg src rest mp ((acc ++ l1) ++ l2) from by
            simp [innerLoop, hb, h1, h2]] at h
          rcases ih ((acc ++ l1) ++ l2) h hp with hin | ⟨d2, hd2, hor⟩
          · rcases List.mem_append.mp hin with hin2 | hin2
            · rcases List.mem_append.mp hin2 with ha | hp1
              · exact Or.inl ha
              · exact Or.inr ⟨d, List.mem_cons_self d rest, Or.inl ⟨l1, h1, hp1⟩⟩
            · exact Or.inr ⟨d, List.mem_cons_self d rest, Or.inr ⟨l2, h2, hin2⟩⟩
          · exact Or.inr ⟨d2, List.mem_cons_of_mem d hd2, hor⟩

theorem outerLoop_mem (kg : KG) (srcs dsts : List String) (mp : Nat)
    (acc l : List Path) (p : Path) :
    outerLoop kg srcs dsts mp acc = Except.ok l → p ∈ l →
      p ∈ acc ∨ ∃ s ∈ srcs, ∃ d ∈ dsts,
        (∃ l1, kg.search_one_hop_relation s d = Except.ok l1 ∧ p ∈ l1) ∨
        (∃ l2, kg.search_two_hop_relation s d = Except.ok l2 ∧ p ∈ l2) := by
  induction srcs generalizing acc with
  | nil =>
    intro h hp
    left
    simp only [outerLoop, Except.ok.injEq] at h
    rwa [h]
  | cons s rest ih =>
    intro h hp
    cases hi : innerLoop kg s dsts mp acc with
    | error e => simp [outerLoop, hi] at h
    | ok acc2 =>
      rw [show outerLoop kg (s :: rest) dsts mp acc
          = outerLoop kg rest dsts mp acc2 from by simp [outerLoop, hi]] at h
      rcases ih acc2 h hp with hin | ⟨s2, hs2, hrest⟩
      · rcases innerLoop_mem kg s dsts mp acc acc2 p hi hin with ha | ⟨d, hd, hor⟩
        · exact Or.inl ha
        · exact Or.inr ⟨s, List.mem_cons_self s rest, d, hd, hor⟩
      · exact Or.inr ⟨s2, List.mem_cons_of_mem s hs2, hrest⟩

theorem processSamples_eq (kg : KG) (samples : List Sample) :
    processSamples kg samples =
      (samples.filterMap
        (fun s => (samplePaths kg s).toOption.map (fun ps => OutSample.mk s ps)),
       samples.countP (fun s => sampleFails kg s),
       samples.filterMap (fun s => sampleError? kg s)) := by
  induction samples with
  | nil => rfl
  | cons s rest ih =>
    cases h : generate_paths s.question_entities s.answer_entities kg default_max_path with
    | error e =>
      simp [processSamples, h, ih, samplePaths, sampleFails, sampleError?,
        Except.toOption, List.filterMap_cons, List.countP_cons]
    | ok ps =>
      simp [processSamples, h, ih, samplePaths, sampleFails, sampleError?,
        Except.toOption, List.filterMap_cons, List.countP_cons]

theorem processed_add_skipped (kg : KG) (samples : List Sample) :
    (processSamples kg samples).1.length + (processSamples kg samples).2.1
      = samples.length := by
  induction samples with
  | nil => rfl
  | cons s rest ih =>
    cases h : generate_paths s.question_entities s.answer_entities kg default_max_path with
    | error e => simp [processSamples, h]; omega
    | ok ps => simp [processSamples, h]; omega

theorem scoreCached_sim {n : Nat} (M : ScorerModel n) (s : ScoreCache)
    (k : ScoreKey) :
    cacheKeys (scoreCached M s k.1 k.2.1 k.2.2).2.1
        = (lruKeysStep (cacheKeys s) k).1 ∧
      (scoreCached M s k.1 k.2.1 k.2.2).2.2 = (lruKeysStep (cacheKeys s) k).2 := by
  have heq : ((fun k2 => k2 == k) ∘ (Prod.fst : ScoreKey × ℝ → ScoreKey))
      = (fun e : ScoreKey × ℝ => e.1 == k) := rfl
  cases hf : List.find? (fun e : ScoreKey × ℝ => e.1 == k) s.entries with
  | none =>
    constructor
    · simp [scoreCached, lruKeysStep, cacheKeys, List.map_take,
        List.eraseP_map, heq, hf]
    · simp [scoreCached, lruKeysStep, cacheKeys, List.map_take,
        List.eraseP_map, heq, hf]
  | some e =>
    constructor
    · simp [scoreCached, lruKeysStep, cacheKeys, List.map_take,
        List.eraseP_map, heq, hf]
    · simp [scoreCached, lruKeysStep, cacheKeys, List.map_take,
        List.eraseP_map, heq, hf]

theorem runCache_sim {n : Nat} (M : ScorerModel n) (s : ScoreCache)
    (ks : List ScoreKey) :
    cacheKeys (runCache M s ks) = lruRunKeys (cacheKeys s) ks := by
  induction ks generalizing s with
  | nil => rfl
  | cons k rest ih =>
    rw [show runCache M s (k :: rest)
        = runCache M (scoreCached M s k.1 k.2.1 k.2.2).2.1 rest from rfl,
      show lruRunKeys (cacheKeys s) (k :: rest)
        = lruRunKeys (lruKeysStep (cacheKeys s) k).1 rest from rfl,
      ih, (scoreCached_sim M s k).1]

theorem scoreCached_repeat {n : Nat} (M : ScorerModel n) (s : ScoreCache)
    (q : String) (prev : List String) (next : String) :
    (scoreCached M (scoreCached M s q prev next).2.1 q prev next).1
        = (scoreCached M s q prev next).1 ∧
      (scoreCached M (scoreCached M s q prev next).2.1 q prev next).2.2 = false := by
  cases hf : List.find? (fun e => e.1 == ((q, prev, next) : ScoreKey)) s.entries with
  | some e =>
    have hstep : scoreCached M s q prev next
        = (e.2, ⟨((q, prev, next), e.2) ::
            s.entries.eraseP (fun e2 => e2.1 == ((q, prev, next) : ScoreKey))⟩,
           false) := by
      simp [scoreCached, hf]
    rw [hstep]
    simp [scoreCached, List.find?_cons]
  | none =>
    have hstep : scoreCached M s q prev next
        = (computeScore M q prev next,
           ⟨(((q, prev, next), computeScore M q prev next) :: s.entries).take
              lruMaxsize⟩,
           true) := by
      simp [scoreCached, hf]
    rw [hstep]
    rw [show lruMaxsize = 127 + 1 from rfl, List.take_succ_cons]
    simp [scoreCached, List.find?_cons]

theorem scoreCached_consistent {n : Nat} (M : ScorerModel n) (s : ScoreCache)
    (q : String) (prev : List String) (next : String) (h : Consistent M s) :
    (scoreCached M s q prev next).1 = computeScore M q prev next ∧
      Consistent M (scoreCached M s q prev next).2.1 := by
  cases hf : List.find? (fun e => e.1 == ((q, prev, next) : ScoreKey)) s.entries with
  | some e =>
    have hmem : e ∈ s.entries := List.mem_of_find?_eq_some hf
    have hkey : e.1 = ((q, prev, next) : ScoreKey) := by
      have := List.find?_some hf
      exact eq_of_beq this
    have hval : e.2 = computeScore M q prev next := by
      rw [h e hmem, hkey]
    have hstep : scoreCached M s q prev next
        = (e.2, ⟨((q, prev, next), e.2) ::
            s.entries.eraseP (fun e2 => e2.1 == ((q, prev, next) : ScoreKey))⟩,
           false) := by
      simp [scoreCached, hf]
    rw [hstep]
    refine ⟨hval, ?_⟩
    intro e2 he2
    rcases List.mem_cons.mp he2 with rfl | he2
    · exact hval
    · exact h e2 (List.eraseP_subset s.entries he2)
  | none =>
    have hstep : scoreCached M s q prev next
        = (computeScore M q prev next,
           ⟨(((q, prev, next), computeScore M q prev next) :: s.entries).take
              lruMaxsize⟩,
           true) := by
      simp [scoreCached, hf]
    rw [hstep]
    refine ⟨rfl, ?_⟩
    intro e2 he2
    have he2' := List.mem_of_mem_take he2
    rcases List.mem_cons.mp he2' with rfl | he2''
    · rfl
    · exact h e2 he2''

theorem dotp_nonneg (n : Nat) (x : Fin n → ℝ) : 0 ≤ dotp n x x :=
  Finset.sum_nonneg (fun i _ => mul_self_nonneg (x i))

theorem cosineEps_pos : (0 : ℝ) < cosineEps := by
  rw [cosineEps]; norm_num

theorem abs_dotp_le (n : Nat) (x y : Fin n → ℝ) :
    |dotp n x y| ≤ Real.sqrt (dotp n x x) * Real.sqrt (dotp n y y) := by
  have hcs : dotp n x y ^ 2 ≤ dotp n x x * dotp n y y := by
    have := Finset.sum_mul_sq_le_sq_mul_sq Finset.univ x y
    simpa [dotp, pow_two] using this
  have h1 : |dotp n x y| = Real.sqrt (dotp n x y ^ 2) :=
    (Real.sqrt_sq_eq_abs (dotp n x y)).symm
  rw [h1, ← Real.sqrt_mul (dotp_nonneg n x)]
  exact Real.sqrt_le_sqrt hcs

theorem abs_cosineSim_le_one (n : Nat) (x y : Fin n → ℝ) :
    |cosineSim n x y| ≤ 1 := by
  have hD : (0 : ℝ) < max (Real.sqrt (dotp n x x) * Real.sqrt (dotp n y y)) cosineEps :=
    lt_max_of_lt_right cosineEps_pos
  have hnum : |dotp n x y| ≤ max (Real.sqrt (dotp n x x) * Real.sqrt (dotp n y y)) cosineEps :=
    le_trans (abs_dotp_le n x y) (le_max_left _ _)
  rw [cosineSim, abs_div, abs_of_pos hD]
  exact (div_le_one hD).mpr hnum

theorem cosineSim_self (n : Nat) (x : Fin n → ℝ) (h : cosineEps ≤ dotp n x x) :
    cosineSim n x x = 1 := by
  have h0 : 0 ≤ dotp n x x := dotp_nonneg n x
  have hne : dotp n x x ≠ 0 :=
    ne_of_gt (lt_of_lt_of_le cosineEps_pos h)
  rw [cosineSim, Real.mul_self_sqrt h0, max_eq_left h, div_self hne]

theorem hfSplitBoundary_le (n : Nat) : hfSplitBoundary n ≤ n := by
  rw [hfSplitBoundary]
  split_ifs <;> omega

/-- C1: whenever `generate_paths` returns a path list, that list has at most
`max_path` elements, whatever the backend answers for the `(src, dst)` pairs;
`main` uses the default bound, which is 100. -/
theorem claim_C1_max_path_bound (srcs dsts : List String) (kg : KG) (mp : Nat)
    (ps : List Path) (h : generate_paths srcs dsts kg mp = Except.ok ps) :
    ps.length ≤ mp ∧ default_max_path = 100 :=
  ⟨generate_paths_length_le srcs dsts kg mp ps h, rfl⟩

theorem claim_C1_witness :
    ([[Triplet.mk "a" "r" "b"], [Triplet.mk "a" "r" "b"]] : List Path).length ≤ 2 ∧
      default_max_path = 100 :=
  claim_C1_max_path_bound ["a"] ["b"] kgFive 2
    [[Triplet.mk "a" "r" "b"], [Triplet.mk "a" "r" "b"]] rfl

/-- C2: the batch loop of `main` never aborts: its output is exactly the
successfully enumerated samples in order (a failed sample is simply absent),
the skip counter counts one per failed sample, each failure's exception is
logged, and the end-of-run summary reports processed, skipped and total with
`processed + skipped = total`. -/
theorem claim_C2_skip_and_continue (kg : KG) (samples : List Sample) :
    processSamples kg samples =
      (samples.filterMap
        (fun s => (samplePaths kg s).toOption.map (fun ps => OutSample.mk s ps)),
       samples.countP (fun s => sampleFails kg s),
       samples.filterMap (fun s => sampleError? kg s)) ∧
      mainSummary kg samples =
        ((processSamples kg samples).1.length,
         (processSamples kg samples).2.1, samples.length) ∧
      (processSamples kg samples).1.length + (processSamples kg samples).2.1
        = samples.length :=
  ⟨processSamples_eq kg samples, rfl, processed_add_skipped kg samples⟩

/-- C4: with a fixed pure backend, `generate_paths` is a function of its
inputs (hence two calls on identical inputs agree), and its output is exactly
the first `max_path` paths of the deterministic concatenation: source-major,
destination-minor pair order, one-hop paths before two-hop paths per pair. -/
theorem claim_C4_deterministic_order (f g : String → String → List Path)
    (srcs dsts : List String) (mp : Nat) :
    generate_paths srcs dsts (pureKG f g) mp
      = Except.ok ((allPairPaths f g srcs dsts).take mp) :=
  generate_paths_pure f g srcs dsts mp

/-- C5 fails on the code: with the source entity `E1` duplicated in the entity
list, the single one-hop path is returned twice, so the output list is not
duplicate-free. -/
theorem claim_C5_counterexample :
    generate_paths ["E1", "E1"] ["E2"] dupKG 100
        = Except.ok [[Triplet.mk "E1" "R" "E2"], [Triplet.mk "E1" "R" "E2"]] ∧
      ¬ ([[Triplet.mk "E1" "R" "E2"], [Triplet.mk "E1" "R" "E2"]] : List Path).Nodup :=
  ⟨rfl, by decide⟩

/-- C5 amended: `generate_paths` performs no deduplication: a pair that is
queried twice (here because the source entity is duplicated) contributes its
paths twice, subject only to the `max_path` truncation. -/
theorem claim_C5_amended_no_dedup (f g : String → String → List Path)
    (src dst : String) (mp : Nat) :
    generate_paths [src, src] [dst] (pureKG f g) mp
      = Except.ok
          (((f src dst ++ g src dst) ++ (f src dst ++ g src dst)).take mp) := by
  have h := generate_paths_pure f g [src, src] [dst] mp
  simpa [allPairPaths, List.append_assoc] using h

/-- C6 fails on the code: a `"timeout"` raised for the second of three pairs
makes the whole enumeration raise, although the backend had one-hop paths for
the first and the third pair — their contributions are not collected. -/
theorem claim_C6_counterexample :
    generate_paths ["E1"] ["E2", "E3", "E4"] timeoutKG 100
        = Except.error "timeout" ∧
      timeoutKG.search_one_hop_relation "E1" "E2"
        = Except.ok [[Triplet.mk "E1" "R" "E2"]] ∧
      timeoutKG.search_one_hop_relation "E1" "E4"
        = Except.ok [[Triplet.mk "E1" "R" "E4"]] :=
  ⟨rfl, rfl, rfl⟩

/-- C6 amended: a backend failure for a queried pair aborts the sample's whole
enumeration: as soon as a failing pair is reached (here the first pair, with a
positive `max_path`), `generate_paths` propagates the exception and returns no
paths at all; the caller then skips the entire sample. -/
theorem claim_C6_amended_abort (f g : String → String → List Path)
    (bs bd e : String) (srcs dsts : List String) (mp : Nat) (h : 0 < mp) :
    generate_paths (bs :: srcs) (bd :: dsts) (failKG f g bs bd e) mp
      = Except.error e := by
  have hb : ¬ mp = 0 := by omega
  simp [generate_paths, outerLoop, innerLoop, failKG, hb]

theorem claim_C6_amended_witness :
    0 < 100 ∧
      generate_paths ["E1"] ["E3"] timeoutKG 100 = Except.error "timeout" :=
  ⟨by decide,
   claim_C6_amended_abort (fun s d => [[Triplet.mk s "R" d]]) (fun _ _ => [])
     "E1" "E3" "timeout" [] [] 100 (by decide)⟩

/-- C7: if every one-hop answer for `(s, d)` is a single triplet `s → d` and
every two-hop answer is a chain `s → m → d`, then every path returned for a
sample starts at one of its question entities and ends at one of its answer
entities. -/
theorem claim_C7_endpoints (kg : KG) (srcs dsts : List String) (mp : Nat)
    (ps : List Path)
    (h1 : ∀ s d l, kg.search_one_hop_relation s d = Except.ok l →
      ∀ p ∈ l, ∃ r, p = [Triplet.mk s r d])
    (h2 : ∀ s d l, kg.search_two_hop_relation s d = Except.ok l →
      ∀ p ∈ l, ∃ r1 m r2, p = [Triplet.mk s r1 m, Triplet.mk m r2 d])
    (hok : generate_paths srcs dsts kg mp = Except.ok ps) :
    ∀ p ∈ ps, PathOK srcs dsts p := by
  intro p hp
  unfold generate_paths at hok
  cases hout : outerLoop kg srcs dsts mp [] with
  | error e => rw [hout] at hok; exact absurd hok (by simp)
  | ok l =>
    rw [hout] at hok
    have hps : ps = l.take mp := by injection hok with h; exact h.symm
    have hpl : p ∈ l := List.mem_of_mem_take (hps ▸ hp)
    rcases outerLoop_mem kg srcs dsts mp [] l p hout hpl with hnil | ⟨s, hs, d, hd, hor⟩
    · exact absurd hnil (List.not_mem_nil p)
    · rcases hor with ⟨l1, hl1, hp1⟩ | ⟨l2, hl2, hp2⟩
      · rcases h1 s d l1 hl1 p hp1 with ⟨r, rfl⟩
        exact ⟨by simp, by simpa using hs, by simpa [List.getLast] using hd⟩
      · rcases h2 s d l2 hl2 p hp2 with ⟨r1, m, r2, rfl⟩
        exact ⟨by simp, by simpa using hs, by simpa [List.getLast] using hd⟩

theorem claim_C7_witness :
    PathOK ["Q1"] ["Q2"] [Triplet.mk "Q1" "P31" "Q2"] :=
  claim_C7_endpoints oneHopKG ["Q1"] ["Q2"] 100 [[Triplet.mk "Q1" "P31" "Q2"]]
    (by
      intro s d l hl p hp
      have h3 : Except.ok [[Triplet.mk s "P31" d]] = Except.ok l := hl
      injection h3 with h4
      subst h4
      have hp2 : p = [Triplet.mk s "P31" d] := by simpa using hp
      exact ⟨"P31", hp2⟩)
    (by
      intro s d l hl p hp
      have h3 : Except.ok ([] : List Path) = Except.ok l := hl
      injection h3 with h4
      subst h4
      exact absurd hp (List.not_mem_nil p))
    rfl [Triplet.mk "Q1" "P31" "Q2"] (by simp)

set_option maxRecDepth 4096 in
/-- C3 fails on the code: `score` is memoized with a bare `@lru_cache`, i.e. a
bounded LRU table of 128 entries, not an unbounded table.  On a fresh instance
the key `("", (), "a")` is computed (a miss); after 128 further distinct keys
it has been evicted, so an identical call runs the encoder computation a
second time (again a miss), although only 129 distinct keys were ever used. -/
theorem claim_C3_counterexample :
    (scoreCached constModel ⟨[]⟩ "" [] "a").2.2 = true ∧
      ("", [], "a") ∈ testKeys ∧
      (scoreCached constModel (runCache constModel ⟨[]⟩ testKeys) "" [] "a").2.2
        = true := by
  refine ⟨by simp [scoreCached], by decide, ?_⟩
  have hsim := (scoreCached_sim constModel (runCache constModel ⟨[]⟩ testKeys)
    (("", [], "a") : ScoreKey)).2
  rw [hsim, runCache_sim]
  decide

/-- C3 amended: repeating a `score` call with the identical
`(question, prev_relations, next_relation)` triple immediately after a call
returns the identical cached value without running the encoder again; however
the memoization table is the bounded default LRU of `functools.lru_cache`
(128 entries), not an unbounded never-evicting table, so a key can be
recomputed once at least 128 other distinct keys have been scored since. -/
theorem claim_C3_amended_cached_repeat {n : Nat} (M : ScorerModel n)
    (s : ScoreCache) (q : String) (prev : List String) (next : String) :
    (scoreCached M (scoreCached M s q prev next).2.1 q prev next).1
        = (scoreCached M s q prev next).1 ∧
      (scoreCached M (scoreCached M s q prev next).2.1 q prev next).2.2
        = false :=
  scoreCached_repeat M s q prev next

/-- C8: for a fixed model state, `score` is a pure function of its three
inputs: whatever the cache state (provided its entries record previous encoder
results), the value returned is exactly the deterministic encoder computation
for the triple, and the cache stays consistent.  The encoder itself is
modelled as deterministic per the spec (no dropout-active behavior), since
`encoder.py` is not among the sources. -/
theorem claim_C8_pure_function {n : Nat} (M : ScorerModel n) (s : ScoreCache)
    (q : String) (prev : List String) (next : String) (h : Consistent M s) :
    (scoreCached M s q prev next).1 = computeScore M q prev next ∧
      Consistent M (scoreCached M s q prev next).2.1 :=
  scoreCached_consistent M s q prev next h

theorem claim_C8_witness :
    (scoreCached constModel ⟨[]⟩ "q" [] "r").1 = computeScore constModel "q" [] "r" ∧
      Consistent constModel (scoreCached constModel ⟨[]⟩ "q" [] "r").2.1 :=
  claim_C8_pure_function constModel ⟨[]⟩ "q" [] "r"
    (by intro e he; exact absurd he (List.not_mem_nil e))

/-- C9: every score lies in `[-1, 1]` (torch's cosine similarity with the
default `eps` clamp), and the cosine similarity of a representation with
itself is exactly 1 whenever its squared norm is at least `eps`. -/
theorem claim_C9_range_and_self :
    (∀ (n : Nat) (M : ScorerModel n) (q : String) (prev : List String)
        (next : String), |computeScore M q prev next| ≤ 1) ∧
      ∀ (n : Nat) (x : Fin n → ℝ), cosineEps ≤ dotp n x x → cosineSim n x x = 1 :=
  ⟨fun n M q prev next => abs_cosineSim_le_one n _ _,
   fun n x h => cosineSim_self n x h⟩

theorem claim_C9_witness :
    |computeScore constModel "q" [] "r"| ≤ 1 ∧ cosineSim 2 unitVec unitVec = 1 :=
  ⟨claim_C9_range_and_self.1 1 constModel "q" [] "r",
   claim_C9_range_and_self.2 2 unitVec (by
      have h : dotp 2 unitVec unitVec = 1 := by
        simp [dotp, unitVec, Fin.sum_univ_two]
      rw [h, cosineEps]
      norm_num)⟩

/-- C10: `prepare_dataloaders` splits the records at the 95% boundary: the
training loader gets the first `hfSplitBoundary n` records and shuffles, the
validation loader gets exactly the remaining records in their original order
and does not shuffle, and the two splits are disjoint by position and together
cover all records. -/
theorem claim_C10_split (α β : Type) (records : List α) (f : α → β) (bs : Nat) :
    (prepare_dataloaders records f bs).1.dataset
          ++ (prepare_dataloaders records f bs).2.dataset
        = records.map f ∧
      (prepare_dataloaders records f bs).1.dataset
          = (records.take (hfSplitBoundary records.length)).map f ∧
      (prepare_dataloaders records f bs).2.dataset
          = (records.drop (hfSplitBoundary records.length)).map f ∧
      (prepare_dataloaders records f bs).1.dataset.length
          = hfSplitBoundary records.length ∧
      (prepare_dataloaders records f bs).1.shuffle = true ∧
      (prepare_dataloaders records f bs).2.shuffle = false := by
  refine ⟨?_, rfl, rfl, ?_, rfl, rfl⟩
  · show (records.take (hfSplitBoundary records.length)).map f
        ++ (records.drop (hfSplitBoundary records.length)).map f = records.map f
    rw [← List.map_append, List.take_append_drop]
  · show ((records.take (hfSplitBoundary records.length)).map f).length
        = hfSplitBoundary records.length
    rw [List.length_map, List.length_take]
    exact min_eq_left (hfSplitBoundary_le records.length)

end Srtk
